import Mathlib

/-!
Verification of the fuzzy string-matching library (package fuzzy).

The Go code is shallowly embedded: a Go string is modelled as its list of
Unicode code points (runes), with byte-level quantities recovered through an
explicit UTF-8 encoder, since Go's len, slicing and the Levenshtein loop work
on bytes while range loops work on runes.  Stateful code (the shared
edit-distance column buffer) is modelled by explicit state passing, and the
buffer accesses are checked ones returning Option, so that out-of-bounds
accesses (which would panic in Go) are visible as None.
-/

namespace Fuzzy

/-- A Go string, modelled as its sequence of Unicode code points (runes).
For the valid UTF-8 strings a Go program manipulates, rune-level equality,
prefix, suffix and substring tests agree with Go's byte-level ones, because
UTF-8 is self-synchronizing. -/
abbrev GoStr := List Char

/-- Conversion from a Lean string literal, for concrete test inputs. -/
def str (s : String) : GoStr := s.toList

/-- UTF-8 encoding of one rune as its list of bytes, each a Nat below 256.
Mirrors Go utf8.EncodeRune on the valid runes that a range loop over a valid
Go string yields. -/
def utf8EncodeChar (c : Char) : List Nat :=
  let n := c.toNat
  if n < 128 then [n]
  else if n < 2048 then [192 + n / 64, 128 + n % 64]
  else if n < 65536 then [224 + n / 4096, 128 + n / 64 % 64, 128 + n % 64]
  else [240 + n / 262144, 128 + n / 4096 % 64, 128 + n / 64 % 64, 128 + n % 64]

/-- Go utf8.RuneLen: the number of UTF-8 bytes of one rune. -/
def runeLen (c : Char) : Nat := (utf8EncodeChar c).length

/-- The UTF-8 byte sequence of a Go string. -/
def utf8Bytes : GoStr → List Nat
  | [] => []
  | c :: cs => utf8EncodeChar c ++ utf8Bytes cs

/-- Go len(s): the byte length of a string. -/
def utf8Len (s : GoStr) : Nat := (utf8Bytes s).length

/-- Modelled after Go unicode.IsSpace, restricted to the ASCII whitespace
characters (the only ones exercised here; the full Unicode table is not
reproduced). -/
def isSpaceRune (c : Char) : Bool :=
  c == ' ' || c == '\t' || c == '\n' || c == '\r' || c == '\x0b' || c == '\x0c'

/-- removeWhitespace removes the whitespace from the string
(strings.Map dropping unicode.IsSpace runes). -/
def removeWhitespace (s : GoStr) : GoStr := s.filter (fun c => !isSpaceRune c)

/-- Modelled after strings.ToLower: Char.toLower lower-cases exactly the ASCII
letters, the fragment of Go's Unicode case tables used here. -/
def strLower (s : GoStr) : GoStr := s.map Char.toLower

/-- Modelled after unicode.IsUpper, on its ASCII fragment. -/
def isUpperRune (c : Char) : Bool := decide ('A' ≤ c ∧ c ≤ 'Z')

/-- isUpper checks if the word is capitalized: some rune is upper case
(false for the empty string). -/
def isUpper (w : GoStr) : Bool := w.any isUpperRune

/-- strings.Cut(s, pat) with the two halves already concatenated, as the
filter evaluator uses it: the first occurrence of pat is removed; the Bool
reports whether pat occurred.  Cutting with an empty pattern succeeds and
leaves s unchanged. -/
def cutOnce (pat : GoStr) : GoStr → GoStr × Bool
  | [] => ([], pat.isEmpty)
  | c :: cs =>
    if pat.isPrefixOf (c :: cs) then ((c :: cs).drop pat.length, true)
    else
      let (r, f) := cutOnce pat cs
      (c :: r, f)

/-- strings.CutSuffix: strips pat when s ends with it. -/
def cutSuf (s pat : GoStr) : GoStr × Bool :=
  if pat.isSuffixOf s then (s.take (s.length - pat.length), true) else (s, false)

/-- strings.CutPrefix: strips pat when s starts with it. -/
def cutPre (s pat : GoStr) : GoStr × Bool :=
  if pat.isPrefixOf s then (s.drop pat.length, true) else (s, false)

/-- The filter loop inside the predicate returned by input: filters are
applied in query order; the check at the top of the loop aborts once a
previous filter has failed; after the loop the residual string is
whitespace-stripped.  The catch-all case (a token that starts with none of
the three markers) is unreachable because only marker-initial tokens are
stored as filters, and mirrors the Go switch falling through with s and
found unchanged. -/
def filterLoop : List GoStr → GoStr → Bool → GoStr × Bool
  | [], s, found => (removeWhitespace s, found)
  | fv :: rest, s, found =>
    if found = false then ([], false)
    else
      match fv with
      | '*' :: pat => let (s2, f2) := cutOnce pat s; filterLoop rest s2 f2
      | '$' :: pat => let (s2, f2) := cutSuf s pat; filterLoop rest s2 f2
      | '^' :: pat => let (s2, f2) := cutPre s pat; filterLoop rest s2 f2
      | _ => filterLoop rest s found

/-- A query token is a filter when it starts with one of the three markers. -/
def isFilterTok (w : GoStr) : Bool :=
  match w with
  | c :: _ => c == '*' || c == '$' || c == '^'
  | [] => false

/-- strings.SplitSeq(q, " "): split on every single space, keeping empty
fields. -/
def splitSp : GoStr → List GoStr
  | [] => [[]]
  | c :: cs =>
    if c = ' ' then [] :: splitSp cs
    else
      match splitSp cs with
      | [] => [[c]]
      | t :: ts => (c :: t) :: ts

/-- input returns the query and the filter function.  The raw query is split
on single spaces; marker-initial tokens become filters, the remaining tokens
are concatenated (in order, with no separator) into the bare term; case
sensitivity is decided once from the bare term; the empty raw query yields
the identity predicate. -/
def input (q : GoStr) : GoStr × (GoStr → GoStr × Bool) :=
  if q = [] then ([], fun s => (s, true))
  else
    let toks := splitSp q
    let fs := toks.filter isFilterTok
    let b := (toks.filter (fun w => !isFilterTok w)).flatten
    let upper := isUpper b
    if fs = [] then
      (b, fun s => (removeWhitespace (if upper then s else strLower s), true))
    else
      (b, fun s => filterLoop fs (if upper then s else strLower s) true)

/-- One step of the greedy scan in matchScore: find the first occurrence of
qr in s, returning the byte offset of the occurrence (Go's range index i)
and the remainder of s after the matched rune. -/
def findRuneSkip (qr : Char) : GoStr → Option (Nat × GoStr)
  | [] => none
  | c :: cs =>
    if qr = c then some (0, cs)
    else
      match findRuneSkip qr cs with
      | none => none
      | some (i, rest) => some (runeLen c + i, rest)

/-- The greedy character loop of matchScore: every rune of q is looked up
left to right in the remainder of s; the byte offsets skipped are summed,
except for the first rune of q (whose Go byte index is 0). -/
def matchLoop : GoStr → GoStr → Bool → Option Nat
  | [], _, _ => some 0
  | qr :: qs, s, first =>
    match findRuneSkip qr s with
    | none => none
    | some (i, rest) =>
      match matchLoop qs rest false with
      | none => none
      | some d => some ((if first then 0 else i) + d)

/-- matchScore calculates the score of the match.  All lengths are Go byte
lengths. -/
def matchScore (q c : GoStr) (f : GoStr → GoStr × Bool) : Int :=
  let p := f c
  let s := p.1
  let ql := utf8Len q
  let sl := utf8Len s
  if p.2 = false ∨ sl < ql then -1
  else if q = s ∨ q = [] then 0
  else if q <:+: s then (sl : Int) - (ql : Int)
  else
    match matchLoop q s true with
    | none => -1
    | some d => (sl : Int) - (ql : Int) + (d : Int)

/-- Match is a struct that contains the score and the position (in the
source slice) of the match. -/
structure Match where
  Score : Int
  Position : Int
deriving DecidableEq, Repr

/-- The scan of find: candidates are visited in index order and each
non-negative score is emitted as a Match at that index. -/
def findAux (fn : GoStr → Int) : List GoStr → Nat → List Match
  | [], _ => []
  | l :: ls, i =>
    let sc := fn l
    (if 0 ≤ sc then [⟨sc, (i : Int)⟩] else []) ++ findAux fn ls (i + 1)

/-- find searches for the query in the source and returns the matches. -/
def find (q : GoStr) (src : List GoStr)
    (fn : GoStr → GoStr → (GoStr → GoStr × Bool) → Int) : List Match :=
  let p := input q
  findAux (fun l => fn p.1 l p.2) src 0

/-- Find searches for the value in the source with the proximity scorer. -/
def Find (q : GoStr) (src : List GoStr) : List Match := find q src matchScore

/-- chunkFind splits the source into chunks and runs the algorithm on each
chunk.  The worker count cpu is min(4, runtime.NumCPU()/2) in Go: it is
environment-dependent, so it is a parameter here and every theorem about
chunkFind quantifies over it.  Each goroutine returns its chunk's matches
with positions offset by the chunk start; the channel delivers chunk results
in a nondeterministic order, so the model fixes chunk order and results are
compared as sets. -/
def chunkFind (cpu : Nat) (q : GoStr) (source : List GoStr)
    (algo : GoStr → List GoStr → List Match) : List Match :=
  if cpu ≤ 1 ∨ source.length ≤ cpu * 500 then algo q source
  else
    let cs := source.length / cpu
    let cc := (source.length + cs - 1) / cs
    ((List.range cc).map (fun i =>
      (algo q ((source.drop (i * cs)).take cs)).map
        (fun m => ⟨m.Score, m.Position + ((i * cs : Nat) : Int)⟩))).flatten

/-- ChunkFind performs the (parallelized) fuzzy search with the standard
matching algorithm. -/
def ChunkFind (cpu : Nat) (q : GoStr) (src : List GoStr) : List Match :=
  chunkFind cpu q src Find

/-- The comparator passed to slices.SortFunc by SortMatches. -/
def matchCmp (a b : Match) : Int :=
  if a.Score = b.Score then a.Position - b.Position else a.Score - b.Score

/-- SortMatches sorts the matches by score and position.  slices.SortFunc
promises a permutation of the input ordered by the comparator; since
matchCmp vanishes only on equal records, that output is unique, so any
sorting algorithm is a faithful model and mergeSort is used. -/
def SortMatches (m : List Match) : List Match :=
  m.mergeSort (fun a b => decide (matchCmp a b ≤ 0))

/-- Find the first occurrence of qr in s, returning the remainder of s after
the matched rune: the inner loop of the coverage scan. -/
def findRune (qr : Char) : GoStr → Option GoStr
  | [] => none
  | c :: cs => if qr = c then some cs else findRune qr cs

/-- The coverage pre-check loop of levenshteinScore: walks the runes of q,
breaking as soon as founded reaches minFind; the result is true exactly when
the Go loop returns -1, i.e. when some rune of q is missing from the
remaining candidate before founded reached minFind.  When the loop consumes
all of q without a miss it falls through even if fewer than minFind runes
were found. -/
def coverLoop (minFind : Nat) : GoStr → GoStr → Nat → Bool
  | [], _, _ => false
  | qr :: qs, sc, founded =>
    if minFind ≤ founded then false
    else
      match findRune qr sc with
      | none => true
      | some rest => coverLoop minFind qs rest (founded + 1)

/-- Checked read of the shared column buffer; Go panics when out of range,
modelled as none. -/
def bufGet (col : List Int) (i : Nat) : Option Int := col[i]?

/-- Checked write to the shared column buffer. -/
def bufSet (col : List Int) (i : Nat) (v : Int) : Option (List Int) :=
  if i < col.length then some (col.set i v) else none

/-- The initialization loop, for i := 0; i <= ql; i++ writes column i = i;
the loop runs ql + 1 - i more times, carried as an explicit structural
iteration count so that the definition is kernel-computable. -/
def initLoop (col : List Int) (i : Nat) : Nat → Option (List Int)
  | 0 => some col
  | fuel + 1 =>
    match bufSet col i (i : Int) with
    | none => none
    | some col2 => initLoop col2 (i + 1) fuel

/-- The inner dynamic-programming loop over y = 1..ql (ql + 1 - y more
iterations, carried structurally): reads the old column y (saved as
oldDiag), the current byte of q, the freshly written column y-1, writes the
minimum of the three moves, and carries oldDiag as the next lastDiag. -/
def innerLoop (qb : List Nat) (sx : Nat) (col : List Int)
    (lastDiag : Int) (y : Nat) : Nat → Option (List Int)
  | 0 => some col
  | fuel + 1 =>
    match bufGet col y, qb[y - 1]?, bufGet col (y - 1) with
    | some oldDiag, some qy, some left =>
      let cost : Int := if qy = sx then 0 else 1
      match bufSet col y (min (oldDiag + 1) (min (left + 1) (lastDiag + cost))) with
      | none => none
      | some col2 => innerLoop qb sx col2 oldDiag (y + 1) fuel
    | _, _, _ => none

/-- The outer dynamic-programming loop over x = 1..sl (sl + 1 - x more
iterations, carried structurally): writes column 0 = x, sets
lastDiag = x - 1, and runs the inner loop on byte x-1 of s for y = 1..ql
(ql iterations). -/
def outerLoop (qb sb : List Nat) (ql : Nat) (col : List Int) (x : Nat) :
    Nat → Option (List Int)
  | 0 => some col
  | fuel + 1 =>
    match sb[x - 1]? with
    | none => none
    | some sx =>
      match bufSet col 0 (x : Int) with
      | none => none
      | some col2 =>
        match innerLoop qb sx col2 ((x : Int) - 1) 1 ql with
        | none => none
        | some col3 => outerLoop qb sb ql col3 (x + 1) fuel

/-- levenshteinScore calculates the score of the match using the Levenshtein
distance over the UTF-8 bytes of the filtered strings, with the caller's
shared column buffer threaded through (and returned, since Go mutates it in
place).  The threshold int(float64(ql) * 0.6) is modelled as 3 * ql / 5: the
float64 computation provably rounds to the exact floor for every byte length
below 2 to the 51st, far beyond any real string. -/
def levenshteinScore (q c : GoStr) (f : GoStr → GoStr × Bool) (col : List Int) :
    Option (Int × List Int) :=
  let p := f c
  let s := p.1
  let ql := utf8Len q
  let sl := utf8Len s
  if p.2 = false ∨ sl < ql then some (-1, col)
  else if q = s ∨ q = [] then some (0, col)
  else if q <:+: s then some ((sl : Int) - (ql : Int), col)
  else if coverLoop (3 * ql / 5) q s 0 then some (-1, col)
  else
    match initLoop col 0 (ql + 1) with
    | none => none
    | some col1 =>
      match outerLoop (utf8Bytes q) (utf8Bytes s) ql col1 1 sl with
      | none => none
      | some col2 =>
        match bufGet col2 ql with
        | none => none
        | some r => some (r, col2)

/-- The scan of LevenshteinFind, threading the shared column buffer through
the candidates in index order. -/
def findLevAux (q2 : GoStr) (f : GoStr → GoStr × Bool) :
    List GoStr → Nat → List Int → Option (List Match)
  | [], _, _ => some []
  | l :: ls, i, col =>
    match levenshteinScore q2 l f col with
    | none => none
    | some (sc, col2) =>
      match findLevAux q2 f ls (i + 1) col2 with
      | none => none
      | some ms => some ((if 0 ≤ sc then [⟨sc, (i : Int)⟩] else []) ++ ms)

/-- LevenshteinFind acts as Find with the Levenshtein scorer; it allocates
one zeroed column of length len(queryValue) + 1 (Go make([]int, n+1)) shared
by all candidates of the call. -/
def LevenshteinFind (q : GoStr) (src : List GoStr) : Option (List Match) :=
  let col := List.replicate (utf8Len q + 1) (0 : Int)
  let p := input q
  findLevAux p.1 p.2 src 0 col

/-- The textbook Levenshtein distance with unit insert, delete and
substitute costs, the reference definition the code is compared against. -/
def levDist : List Nat → List Nat → Nat
  | [], ys => ys.length
  | _ :: xs, [] => xs.length + 1
  | x :: xs, y :: ys =>
    if x = y then levDist xs ys
    else 1 + min (levDist xs ys) (min (levDist xs (y :: ys)) (levDist (x :: xs) ys))
termination_by xs ys => xs.length + ys.length

/-- The number of runes of q that one greedy forward scan of s finds in
order: the count of the longest prefix of q that embeds left to right.  This
is the reference description of the coverage count. -/
def greedyFound : GoStr → GoStr → Nat
  | [], _ => 0
  | qr :: qs, s =>
    match findRune qr s with
    | none => 0
    | some rest => greedyFound qs rest + 1

/-- Reference shape of the dynamic-programming column (entries 1..ql): entry
for prefix-rune y of q holds the distance between the reversed q-prefix and
the reversed processed s-prefix B. -/
def specCol (B : List Nat) : List Nat → List Nat → List Nat
  | _, [] => []
  | revPre, qy :: qs => levDist (qy :: revPre) B :: specCol B (qy :: revPre) qs

/-! ### Helper lemmas -/

theorem cutOnce_nil_pat : ∀ s : GoStr, cutOnce [] s = (s, true)
  | [] => rfl
  | _ :: _ => by simp [cutOnce, List.isPrefixOf]

theorem cutSuf_nil_pat (s : GoStr) : cutSuf s [] = (s, true) := by
  simp [cutSuf, List.isSuffixOf, List.isPrefixOf]

theorem cutPre_nil_pat (s : GoStr) : cutPre s [] = (s, true) := by
  simp [cutPre, List.isPrefixOf]

theorem toNat_ofNat_valid (n : Nat) (h : n.isValidChar) : (Char.ofNat n).toNat = n := by
  simp [Char.ofNat, h, Char.ofNatAux, Char.toNat, UInt32.toNat]

theorem toLower_eq_self (d : Char) (h : ¬(d.toNat ≥ 65 ∧ d.toNat ≤ 90)) :
    Char.toLower d = d := by
  unfold Char.toLower
  exact if_neg h

theorem toLower_toNat (c : Char) (h : 65 ≤ c.toNat ∧ c.toNat ≤ 90) :
    (Char.toLower c).toNat = c.toNat + 32 := by
  unfold Char.toLower
  rw [if_pos h]
  exact toNat_ofNat_valid _ (Or.inl (by omega))

theorem toLower_idem (c : Char) : Char.toLower (Char.toLower c) = Char.toLower c := by
  by_cases h : 65 ≤ c.toNat ∧ c.toNat ≤ 90
  · have h1 : (Char.toLower c).toNat = c.toNat + 32 := toLower_toNat c h
    exact toLower_eq_self _ (by omega)
  · have h1 : Char.toLower c = c := toLower_eq_self _ h
    rw [h1, h1]

theorem strLower_idem (s : GoStr) : strLower (strLower s) = strLower s := by
  simp [strLower, Function.comp_def, toLower_idem]

/-! ### Claim theorems -/

/-- Claim C7: SortMatches returns a permutation of its input in which every
adjacent pair a, b satisfies a.Score < b.Score, or a.Score = b.Score and
a.Position ≤ b.Position. -/
theorem sortMatches_perm_and_sorted (m : List Match) :
    (SortMatches m).Perm m ∧
      (SortMatches m).Chain'
        (fun a b => a.Score < b.Score ∨ (a.Score = b.Score ∧ a.Position ≤ b.Position)) := by
  constructor
  · exact List.mergeSort_perm m _
  · have hp := @List.sorted_mergeSort Match
      (fun a b : Match => decide (matchCmp a b ≤ 0))
      (by
        intro a b c h1 h2
        simp only [decide_eq_true_eq, matchCmp] at h1 h2 ⊢
        split_ifs at h1 h2 ⊢ <;> omega)
      (by
        intro a b
        simp only [Bool.or_eq_true, decide_eq_true_eq, matchCmp]
        split_ifs <;> omega)
      m
    refine List.Pairwise.chain' (List.Pairwise.imp ?_ hp)
    intro a b hab
    simp only [decide_eq_true_eq, matchCmp] at hab
    by_cases h : a.Score = b.Score
    · rw [if_pos h] at hab
      exact Or.inr ⟨h, by omega⟩
    · rw [if_neg h] at hab
      exact Or.inl (by omega)

/-- Claim C4, counterexample: Find with query dollar-t space ca on the list
cart, clap, ca, cat, cow does not return the claimed set of pairs (2,0) and
(1,3): the suffix filter strips the final t before scoring, so cart is
scored as car (score 1) and cat as ca (score 0). -/
theorem find_dollar_t_ca_counterexample :
    Find (str "$t ca") [str "cart", str "clap", str "ca", str "cat", str "cow"] =
        [⟨1, 0⟩, ⟨0, 3⟩] ∧
      (Find (str "$t ca") [str "cart", str "clap", str "ca", str "cat", str "cow"]).toFinset ≠
        ({⟨2, 0⟩, ⟨1, 3⟩} : Finset Match) := by
  constructor
  · decide
  · decide

/-- Claim C4, amended: Find with query dollar-t space ca on the list cart,
clap, ca, cat, cow returns exactly the set of pairs (1,0) and (0,3): only
the entries ending in t pass the filter, and they are scored after the
suffix t has been stripped, so cart scores 1 and cat scores 0. -/
theorem find_dollar_t_ca :
    (Find (str "$t ca") [str "cart", str "clap", str "ca", str "cat", str "cow"]).toFinset =
      ({⟨1, 0⟩, ⟨0, 3⟩} : Finset Match) := by
  decide

theorem matchScore_nil_q (l : GoStr) : matchScore [] l (fun s => (s, true)) = 0 := by
  simp [matchScore, utf8Len, utf8Bytes]

theorem findAux_all_zero (fn : GoStr → Int) (hfn : ∀ l, fn l = 0) :
    ∀ (src : List GoStr) (i : Nat),
      findAux fn src i = (List.range' i src.length).map (fun j : Nat => (⟨0, (j : Int)⟩ : Match))
  | [], i => by simp [findAux]
  | l :: ls, i => by
    rw [show (l :: ls).length = ls.length + 1 from rfl, List.range'_succ, List.map_cons]
    simp only [findAux, hfn]
    rw [findAux_all_zero fn hfn ls (i + 1)]
    simp

/-- Claim C8: for the empty query, Find returns one Match of score 0 per
index of the source, in ascending position order, and the predicate always
passes and returns each candidate unchanged. -/
theorem find_empty_query (src : List GoStr) :
    Find [] src = (List.range src.length).map (fun i : Nat => (⟨0, (i : Int)⟩ : Match)) ∧
      ∀ s, (input ([] : GoStr)).2 s = (s, true) := by
  have h : input ([] : GoStr) = ([], fun s => (s, true)) := rfl
  constructor
  · show findAux (fun l => matchScore (input ([] : GoStr)).1 l (input ([] : GoStr)).2) src 0 = _
    rw [h]
    rw [findAux_all_zero _ (fun l => matchScore_nil_q l) src 0, List.range_eq_range']
  · intro s
    rw [h]

/-- Claim C9: a filter token that is only its marker character (bare star,
dollar or caret, an empty literal) always succeeds and leaves the candidate
unchanged apart from the usual case transform and whitespace removal: the
three cut operations with an empty pattern are the identity, and the
predicates parsed from the bare one-character queries pass every candidate.
No query is rejected as invalid syntax: input is total and the catch-all
never fires. -/
theorem bare_filter_tokens :
    (∀ s : GoStr, cutOnce [] s = (s, true)) ∧
      (∀ s : GoStr, cutSuf s [] = (s, true)) ∧
      (∀ s : GoStr, cutPre s [] = (s, true)) ∧
      (∀ s : GoStr, (input (str "*")).2 s = (removeWhitespace (strLower s), true)) ∧
      (∀ s : GoStr, (input (str "$")).2 s = (removeWhitespace (strLower s), true)) ∧
      (∀ s : GoStr, (input (str "^")).2 s = (removeWhitespace (strLower s), true)) := by
  refine ⟨cutOnce_nil_pat, cutSuf_nil_pat, cutPre_nil_pat, ?_, ?_, ?_⟩
  · intro s
    have h : input (str "*") = ([], fun s => filterLoop [['*']] (strLower s) true) := rfl
    rw [h]
    simp [filterLoop, cutOnce_nil_pat]
  · intro s
    have h : input (str "$") = ([], fun s => filterLoop [['$']] (strLower s) true) := rfl
    rw [h]
    simp [filterLoop, cutSuf_nil_pat]
  · intro s
    have h : input (str "^") = ([], fun s => filterLoop [['^']] (strLower s) true) := rfl
    rw [h]
    simp [filterLoop, cutPre_nil_pat]

/-- Claim C6: case sensitivity is decided once per query from the bare term
only, ignoring filter tokens.  When the bare term has no upper-case letter
the predicate is insensitive to the case of the candidate (lower-casing the
candidate first changes nothing, for any non-empty query, with or without
filters); an upper-case filter token alone does not make the query
sensitive; and concretely matchScore of query Test against test is no-match
while matchScore of query test against TEST is 0. -/
theorem case_sensitivity :
    (∀ (q s : GoStr), q ≠ [] → isUpper (input q).1 = false →
        (input q).2 (strLower s) = (input q).2 s) ∧
      isUpper (input (str "ca $T")).1 = false ∧
      matchScore (input (str "Test")).1 (str "test") (input (str "Test")).2 = -1 ∧
      matchScore (input (str "test")).1 (str "TEST") (input (str "test")).2 = 0 := by
  refine ⟨?_, by decide, by decide, by decide⟩
  intro q s hq hup
  simp only [input, if_neg hq] at hup ⊢
  by_cases hfs : (splitSp q).filter isFilterTok = []
  · simp only [if_pos hfs] at hup ⊢
    simp [hup, strLower_idem]
  · simp only [if_neg hfs] at hup ⊢
    simp [hup, strLower_idem]

/-- Witness for claim C6 at a concrete lower-case query and mixed-case
candidate. -/
theorem case_sensitivity_witness :
    (input (str "ca")).2 (strLower (str "AB C")) = (input (str "ca")).2 (str "AB C") :=
  case_sensitivity.1 (str "ca") (str "AB C") (by decide) (by decide)

theorem utf8Bytes_append : ∀ a b : GoStr, utf8Bytes (a ++ b) = utf8Bytes a ++ utf8Bytes b
  | [], _ => rfl
  | c :: cs, b => by simp [utf8Bytes, utf8Bytes_append cs b]

theorem utf8Len_append (a b : GoStr) : utf8Len (a ++ b) = utf8Len a + utf8Len b := by
  simp [utf8Len, utf8Bytes_append]

theorem utf8Len_cons (c : Char) (s : GoStr) : utf8Len (c :: s) = runeLen c + utf8Len s := by
  simp [utf8Len, utf8Bytes, runeLen]

theorem utf8Len_le_of_contains {q s : GoStr} (h : q <:+: s) : utf8Len q ≤ utf8Len s := by
  obtain ⟨u, v, rfl⟩ := h
  simp [utf8Len_append]
  omega

theorem utf8Len_le_of_sub {q s : GoStr} (h : List.Sublist q s) : utf8Len q ≤ utf8Len s := by
  induction h with
  | slnil => exact Nat.le_refl _
  | cons c _ ih => rw [utf8Len_cons]; omega
  | cons₂ c _ ih => rw [utf8Len_cons, utf8Len_cons]; omega

/-- Claim C2, counterexample: matchScore scores a substring match by the
byte-length difference, not the codepoint-length difference.  For the query
a against the candidate e-acute a, the predicate passes and leaves the
candidate unchanged, the term is a literal contiguous substring of it, and
matchScore returns 2 (3 bytes minus 1 byte) while the codepoint lengths
differ by 1. -/
theorem matchScore_codepoint_counterexample :
    ((input (str "a")).2 (str "éa")).2 = true ∧
      ((input (str "a")).2 (str "éa")).1 = str "éa" ∧
      str "a" <:+: str "éa" ∧
      matchScore (str "a") (str "éa") (input (str "a")).2 = 2 ∧
      ((str "éa").length : Int) - ((str "a").length : Int) = 1 := by
  refine ⟨by decide, by decide, by decide, by decide, by decide⟩

/-- Claim C2, amended: for every non-empty term t and candidate such that
the predicate passes and t is a literal contiguous substring of the
predicate-transformed candidate, matchScore is the UTF-8 byte length of the
transformed candidate minus the byte length of t (which agrees with the
codepoint difference on ASCII data). -/
theorem matchScore_substring (q c : GoStr) (f : GoStr → GoStr × Bool)
    (hpass : (f c).2 = true) (hne : q ≠ []) (hsub : q <:+: (f c).1) :
    matchScore q c f = (utf8Len (f c).1 : Int) - (utf8Len q : Int) := by
  have hle : utf8Len q ≤ utf8Len (f c).1 := utf8Len_le_of_contains hsub
  simp only [matchScore]
  rw [if_neg (by rw [hpass]; push_neg; exact ⟨by simp, by omega⟩)]
  by_cases heq : q = (f c).1
  · rw [if_pos (Or.inl heq), heq]
    omega
  · rw [if_neg (by rintro (h | h) <;> [exact heq h; exact hne h])]
    rw [if_pos hsub]

/-- Witness for the amended claim C2 at the concrete substring pair
ca and cart. -/
theorem matchScore_substring_witness :
    matchScore (str "ca") (str "cart") (input (str "ca")).2 =
      (utf8Len ((input (str "ca")).2 (str "cart")).1 : Int) - (utf8Len (str "ca") : Int) :=
  matchScore_substring _ _ _ (by decide) (by decide) (by decide)

theorem findRuneSkip_none_iff (qr : Char) :
    ∀ s : GoStr, findRuneSkip qr s = none ↔ qr ∉ s
  | [] => by simp [findRuneSkip]
  | c :: cs => by
    by_cases h : qr = c
    · subst h
      simp [findRuneSkip]
    · cases hfs : findRuneSkip qr cs with
      | none =>
        have := (findRuneSkip_none_iff qr cs).mp hfs
        simp [findRuneSkip, h, hfs, this]
      | some p =>
        have hmem : ¬qr ∉ cs := fun hn => by
          rw [(findRuneSkip_none_iff qr cs).mpr hn] at hfs
          exact Option.noConfusion hfs
        simp [findRuneSkip, h, hfs]
        exact not_not.mp hmem

theorem findRuneSkip_shorter (qr : Char) :
    ∀ (s : GoStr) (i : Nat) (rest : GoStr),
      findRuneSkip qr s = some (i, rest) → rest.length < s.length
  | [], i, rest => by simp [findRuneSkip]
  | c :: cs, i, rest => by
    intro h
    by_cases hc : qr = c
    · subst hc
      simp [findRuneSkip] at h
      rw [← h.2, List.length_cons]
      omega
    · cases hfs : findRuneSkip qr cs with
      | none => simp [findRuneSkip, hc, hfs] at h
      | some p =>
        have ih := findRuneSkip_shorter qr cs p.1 p.2 (by rw [hfs])
        simp only [findRuneSkip, if_neg hc, hfs, Option.some_inj, Prod.mk.injEq] at h
        rw [← h.2, List.length_cons]
        omega

theorem sub_iff_of_findRuneSkip (qr : Char) :
    ∀ (s : GoStr) (i : Nat) (rest : GoStr), findRuneSkip qr s = some (i, rest) →
      ∀ qs : GoStr, (List.Sublist (qr :: qs) s ↔ List.Sublist qs rest)
  | [], i, rest => by simp [findRuneSkip]
  | c :: cs, i, rest => by
    intro h qs
    by_cases hc : qr = c
    · subst hc
      simp [findRuneSkip] at h
      rw [← h.2]
      exact List.cons_sublist_cons
    · cases hfs : findRuneSkip qr cs with
      | none => simp [findRuneSkip, hc, hfs] at h
      | some p =>
        have ih := sub_iff_of_findRuneSkip qr cs p.1 p.2 (by rw [hfs]) qs
        simp only [findRuneSkip, if_neg hc, hfs, Option.some_inj, Prod.mk.injEq] at h
        rw [← h.2]
        constructor
        · intro hsub
          cases hsub with
          | cons _ h2 => exact ih.mp h2
          | cons₂ => exact absurd rfl hc
        · intro hsub
          exact List.Sublist.cons c (ih.mpr hsub)

theorem matchLoop_isSome_aux :
    ∀ (n : Nat) (s : GoStr), s.length ≤ n → ∀ (q : GoStr) (b : Bool),
      ((matchLoop q s b).isSome = true ↔ List.Sublist q s)
  | n, s, hn, [], b => by
    simp [matchLoop, List.nil_sublist]
  | Nat.zero, s, hn, qr :: qs, b => by
    have : s = [] := List.eq_nil_of_length_eq_zero (Nat.le_zero.mp hn)
    subst this
    simp [matchLoop, findRuneSkip]
  | Nat.succ n, s, hn, qr :: qs, b => by
    cases hfs : findRuneSkip qr s with
    | none =>
      have hnm : qr ∉ s := (findRuneSkip_none_iff qr s).mp hfs
      have hml : matchLoop (qr :: qs) s b = none := by simp [matchLoop, hfs]
      rw [hml]
      simp only [Option.isSome_none, Bool.false_eq_true, false_iff]
      intro hsub
      exact hnm (hsub.subset (List.mem_cons_self qr qs))
    | some p =>
      obtain ⟨i, rest⟩ := p
      have hlt : rest.length < s.length := findRuneSkip_shorter qr s i rest hfs
      have hrec := matchLoop_isSome_aux n rest (by omega) qs false
      have hiff := sub_iff_of_findRuneSkip qr s i rest hfs qs
      simp only [matchLoop, hfs]
      rw [hiff, ← hrec]
      cases matchLoop qs rest false <;> simp

theorem matchLoop_isSome (q s : GoStr) (b : Bool) :
    (matchLoop q s b).isSome = true ↔ List.Sublist q s :=
  matchLoop_isSome_aux s.length s (Nat.le_refl _) q b

/-- Claim C5: matchScore returns -1 exactly when the predicate fails, or
the transformed candidate is byte-shorter than the term, or some rune of
the term cannot be found in order by the greedy leftmost forward scan
(equivalently, the term is not a subsequence of the transformed candidate);
in every other case the score is non-negative: a negative value is never
returned as a real score. -/
theorem matchScore_no_match_iff (q c : GoStr) (f : GoStr → GoStr × Bool) :
    (matchScore q c f = -1 ↔
        (f c).2 = false ∨ utf8Len (f c).1 < utf8Len q ∨ ¬List.Sublist q (f c).1) ∧
      (matchScore q c f = -1 ∨ 0 ≤ matchScore q c f) := by
  simp only [matchScore]
  by_cases h1 : (f c).2 = false ∨ utf8Len (f c).1 < utf8Len q
  · rw [if_pos h1]
    exact ⟨by tauto, Or.inl rfl⟩
  · rw [if_neg h1]
    push_neg at h1
    by_cases h2 : q = (f c).1 ∨ q = []
    · rw [if_pos h2]
      have hsub : List.Sublist q (f c).1 := by
        rcases h2 with h2 | h2
        · rw [h2]
        · rw [h2]; exact List.nil_sublist _
      constructor
      · constructor
        · intro h; exact absurd h (by decide)
        · rintro (h | h | h)
          · exact absurd h h1.1
          · omega
          · exact absurd hsub h
      · right; exact Int.le_refl 0
    · rw [if_neg h2]
      by_cases h3 : q <:+: (f c).1
      · rw [if_pos h3]
        have hsub : List.Sublist q (f c).1 := h3.sublist
        have hge : (0 : Int) ≤ (utf8Len (f c).1 : Int) - (utf8Len q : Int) := by omega
        constructor
        · constructor
          · intro h; omega
          · rintro (h | h | h)
            · exact absurd h h1.1
            · omega
            · exact absurd hsub h
        · right; exact hge
      · rw [if_neg h3]
        cases hml : matchLoop q (f c).1 true with
        | none =>
          have : ¬List.Sublist q (f c).1 := by
            rw [← matchLoop_isSome q (f c).1 true, hml]
            simp
          exact ⟨by tauto, Or.inl rfl⟩
        | some d =>
          have hsub : List.Sublist q (f c).1 := by
            rw [← matchLoop_isSome q (f c).1 true, hml]
            rfl
          have hne2 : ¬((utf8Len (f c).1 : Int) - (utf8Len q : Int) + (d : Int) = -1) := by
            omega
          have hge : (0 : Int) ≤ (utf8Len (f c).1 : Int) - (utf8Len q : Int) + (d : Int) := by
            omega
          refine ⟨⟨fun h => absurd h hne2, fun h => ?_⟩, Or.inr hge⟩
          rcases h with h | h | h
          · exact absurd h h1.1
          · exact absurd h (by omega)
          · exact absurd hsub h

theorem map_shift_shift (a b : Int) (l : List Match) :
    (l.map (fun m => (⟨m.Score, m.Position + a⟩ : Match))).map
        (fun m => (⟨m.Score, m.Position + b⟩ : Match)) =
      l.map (fun m => (⟨m.Score, m.Position + (a + b)⟩ : Match)) := by
  simp [List.map_map, Function.comp_def, add_assoc]

theorem findAux_shift (fn : GoStr → Int) :
    ∀ (src : List GoStr) (i : Nat),
      findAux fn src i =
        (findAux fn src 0).map (fun m => (⟨m.Score, m.Position + (i : Int)⟩ : Match))
  | [], i => by simp [findAux]
  | l :: ls, i => by
    simp only [findAux]
    rw [findAux_shift fn ls (i + 1), findAux_shift fn ls 1, List.map_append, map_shift_shift]
    have hcast : ((i + 1 : Nat) : Int) = 1 + (i : Int) := by omega
    simp only [hcast]
    congr 1
    by_cases h : 0 ≤ fn l <;> simp [h]

theorem findAux_append (fn : GoStr → Int) :
    ∀ (s1 s2 : List GoStr) (i : Nat),
      findAux fn (s1 ++ s2) i = findAux fn s1 i ++ findAux fn s2 (i + s1.length)
  | [], s2, i => by simp [findAux]
  | l :: ls, s2, i => by
    simp only [List.cons_append, findAux]
    have hlen : i + 1 + ls.length = i + (l :: ls).length := by
      simp [List.length_cons]
      omega
    have ih : findAux fn (List.append ls s2) (i + 1) =
        findAux fn ls (i + 1) ++ findAux fn s2 (i + 1 + ls.length) :=
      findAux_append fn ls s2 (i + 1)
    rw [ih, hlen, List.append_assoc]

theorem flatten_map_map (h : Match → Match) (g : Nat → List Match) :
    ∀ r : List Nat, ((r.map (fun i => (g i).map h)).flatten) = ((r.map g).flatten).map h
  | [] => by simp
  | i :: is => by simp [flatten_map_map h g is]

theorem chunk_join (fn : GoStr → Int) :
    ∀ (cc cs : Nat) (src : List GoStr), src.length ≤ cc * cs →
      ((List.range cc).map (fun i =>
          (findAux fn ((src.drop (i * cs)).take cs) 0).map
            (fun m => (⟨m.Score, m.Position + ((i * cs : Nat) : Int)⟩ : Match)))).flatten =
        findAux fn src 0
  | 0, cs, src => by
    intro h
    have hsrc : src = [] := List.eq_nil_of_length_eq_zero (by omega)
    subst hsrc
    simp [findAux]
  | cc + 1, cs, src => by
    intro h
    rw [Nat.succ_mul] at h
    rw [List.range_succ_eq_map, List.map_cons, List.flatten_cons, List.map_map]
    have hhead :
        (findAux fn ((src.drop (0 * cs)).take cs) 0).map
            (fun m => (⟨m.Score, m.Position + ((0 * cs : Nat) : Int)⟩ : Match)) =
          findAux fn (src.take cs) 0 := by
      simp
    rw [hhead]
    have hpt : ∀ i : Nat,
        ((fun i => (findAux fn ((src.drop (i * cs)).take cs) 0).map
            (fun m => (⟨m.Score, m.Position + ((i * cs : Nat) : Int)⟩ : Match))) ∘ Nat.succ) i =
          List.map (fun m => (⟨m.Score, m.Position + (cs : Int)⟩ : Match))
            ((findAux fn (((src.drop cs).drop (i * cs)).take cs) 0).map
              (fun m => (⟨m.Score, m.Position + ((i * cs : Nat) : Int)⟩ : Match))) := by
      intro i
      simp only [Function.comp_apply, List.drop_drop, map_shift_shift]
      have h1 : cs + i * cs = Nat.succ i * cs := by
        rw [Nat.succ_mul]
        omega
      have h2 : ((i * cs : Nat) : Int) + (cs : Int) = ((Nat.succ i * cs : Nat) : Int) := by
        rw [Nat.succ_mul]
        push_cast
        omega
      rw [h1, h2]
    rw [List.map_congr_left (fun i _ => hpt i)]
    rw [flatten_map_map (fun m => (⟨m.Score, m.Position + (cs : Int)⟩ : Match))
        (fun i => (findAux fn (((src.drop cs).drop (i * cs)).take cs) 0).map
          (fun m => (⟨m.Score, m.Position + ((i * cs : Nat) : Int)⟩ : Match)))]
    rw [chunk_join fn cc cs (src.drop cs) (by rw [List.length_drop]; omega)]
    rw [← findAux_shift fn (src.drop cs) cs]
    conv_rhs => rw [← List.take_append_drop cs src]
    rw [findAux_append fn (src.take cs) (src.drop cs) 0]
    congr 1
    by_cases hcs : cs ≤ src.length
    · congr 1
      rw [List.length_take]
      omega
    · have hnil : src.drop cs = [] := List.drop_eq_nil_of_le (by omega)
      rw [hnil]
      simp [findAux]

/-- Claim C1: for every worker count, query and source, ChunkFind and Find
agree as sets of (Score, Position) pairs: under chunked execution every
candidate receives exactly the score and the global position it receives
under single-threaded execution (in this sequential model of the fork-join
the agreement is even a list equality; the real channel only permutes chunk
blocks, which a set comparison ignores). -/
theorem chunkFind_same_matches (cpu : Nat) (q : GoStr) (src : List GoStr) :
    (ChunkFind cpu q src).toFinset = (Find q src).toFinset := by
  suffices h : ChunkFind cpu q src = Find q src by rw [h]
  unfold ChunkFind chunkFind
  by_cases hc : cpu ≤ 1 ∨ src.length ≤ cpu * 500
  · rw [if_pos hc]
  · rw [if_neg hc]
    push_neg at hc
    have hcpu : 1 < cpu := hc.1
    have hlen : cpu * 500 < src.length := hc.2
    have hcpu_le : cpu ≤ src.length := by
      have h500 : cpu * 1 ≤ cpu * 500 := Nat.mul_le_mul_left cpu (by omega)
      omega
    have hcs : 0 < src.length / cpu := Nat.div_pos hcpu_le (by omega)
    have hcover : src.length ≤
        ((src.length + src.length / cpu - 1) / (src.length / cpu)) * (src.length / cpu) := by
      have hdm := Nat.div_add_mod (src.length + src.length / cpu - 1) (src.length / cpu)
      have hmlt : (src.length + src.length / cpu - 1) % (src.length / cpu) < src.length / cpu :=
        Nat.mod_lt _ hcs
      rw [Nat.mul_comm]
      generalize hA : src.length / cpu *
        ((src.length + src.length / cpu - 1) / (src.length / cpu)) = A at hdm ⊢
      omega
    have hfind : ∀ l : List GoStr,
        Find q l = findAux (fun l2 => matchScore (input q).1 l2 (input q).2) l 0 :=
      fun l => rfl
    simp only [hfind]
    exact chunk_join _ _ _ src hcover

/-! ### Levenshtein distance theory -/

theorem levDist_nil (ys : List Nat) : levDist [] ys = ys.length := by
  simp [levDist]

theorem levDist_nil_right (xs : List Nat) : levDist xs [] = xs.length := by
  cases xs <;> simp [levDist]

theorem levDist_cons (x y : Nat) (xs ys : List Nat) :
    levDist (x :: xs) (y :: ys) =
      if x = y then levDist xs ys
      else 1 + min (levDist xs ys) (min (levDist xs (y :: ys)) (levDist (x :: xs) ys)) := by
  rw [levDist]

theorem levDist_len : ∀ (n : Nat) (xs ys : List Nat), xs.length + ys.length ≤ n →
    ys.length ≤ levDist xs ys + xs.length ∧ xs.length ≤ levDist xs ys + ys.length
  | _, [], ys, _ => by simp [levDist_nil]
  | _, x :: xs, [], _ => by simp [levDist_nil_right]
  | 0, x :: xs, y :: ys, h => by simp at h
  | n + 1, x :: xs, y :: ys, h => by
    simp only [List.length_cons] at h
    have h1 := levDist_len n xs ys (by omega)
    have h2 := levDist_len n xs (y :: ys) (by simp only [List.length_cons]; omega)
    have h3 := levDist_len n (x :: xs) ys (by simp only [List.length_cons]; omega)
    rw [levDist_cons]
    simp only [List.length_cons] at *
    by_cases hxy : x = y
    · simp only [if_pos hxy]
      omega
    · simp only [if_neg hxy]
      omega

theorem levDist_bound : ∀ (n : Nat) (xs ys : List Nat), xs.length + ys.length ≤ n →
    (∀ y, levDist xs ys ≤ levDist xs (y :: ys) + 1) ∧
      (∀ x, levDist xs ys ≤ levDist (x :: xs) ys + 1)
  | _, [], ys, _ => by
    constructor
    · intro y
      simp only [levDist_nil, List.length_cons]
      omega
    · intro x
      have h := (levDist_len ([x].length + ys.length) [x] ys (Nat.le_refl _)).1
      simp only [levDist_nil, List.length_cons, List.length_nil] at h ⊢
      omega
  | _, x :: xs, [], _ => by
    constructor
    · intro y
      have h := (levDist_len ((x :: xs).length + [y].length) (x :: xs) [y] (Nat.le_refl _)).2
      simp only [levDist_nil_right, List.length_cons, List.length_nil] at h ⊢
      omega
    · intro x2
      simp only [levDist_nil_right, List.length_cons]
      omega
  | 0, x :: xs, y :: ys, h => by simp at h
  | n + 1, x :: xs, y :: ys, h => by
    simp only [List.length_cons] at h
    have b1 := levDist_bound n xs ys (by omega)
    have b2 := levDist_bound n xs (y :: ys) (by simp only [List.length_cons]; omega)
    have b3 := levDist_bound n (x :: xs) ys (by simp only [List.length_cons]; omega)
    constructor
    · intro y2
      have f1 := b1.1 y
      have f2 := b2.1 y2
      rw [levDist_cons x y2, levDist_cons x y]
      split_ifs <;> omega
    · intro x2
      have g1 := b1.2 x
      have g2 := b3.2 x2
      rw [levDist_cons x2 y, levDist_cons x y]
      split_ifs <;> omega

theorem levDist_uniform (x y : Nat) (xs ys : List Nat) :
    levDist (x :: xs) (y :: ys) =
      min (levDist xs ys + (if x = y then 0 else 1))
        (min (levDist xs (y :: ys) + 1) (levDist (x :: xs) ys + 1)) := by
  have hb := levDist_bound (xs.length + ys.length) xs ys (Nat.le_refl _)
  have h1 := hb.1 y
  have h2 := hb.2 x
  rw [levDist_cons]
  by_cases hxy : x = y
  · rw [if_pos hxy, if_pos hxy]
    omega
  · rw [if_neg hxy, if_neg hxy]
    omega

set_option maxHeartbeats 1600000 in
theorem levDist_snoc : ∀ (n : Nat) (A B : List Nat) (a b : Nat), A.length + B.length ≤ n →
    levDist (A ++ [a]) (B ++ [b]) =
      min (levDist A B + (if a = b then 0 else 1))
        (min (levDist A (B ++ [b]) + 1) (levDist (A ++ [a]) B + 1))
  | _, [], [], a, b, _ => by
    simp only [List.nil_append]
    exact levDist_uniform a b [] []
  | 0, [], y :: B', a, b, h => by simp at h
  | n + 1, [], y :: B', a, b, h => by
    simp only [List.length_cons, List.length_nil] at h
    have ih := levDist_snoc n [] B' a b (by simp; omega)
    simp only [List.nil_append, List.cons_append] at ih ⊢
    rw [levDist_uniform a y [] (B' ++ [b]), ih, levDist_uniform a y [] B']
    simp only [levDist_nil, List.length_append, List.length_cons, List.length_nil]
    generalize (if a = y then 0 else 1) = cay
    generalize (if a = b then 0 else 1) = cab
    omega
  | 0, x :: A', [], a, b, h => by simp at h
  | n + 1, x :: A', [], a, b, h => by
    simp only [List.length_cons, List.length_nil] at h
    have ih := levDist_snoc n A' [] a b (by simp; omega)
    simp only [List.nil_append, List.cons_append] at ih ⊢
    rw [levDist_uniform x b (A' ++ [a]) [], ih, levDist_uniform x b A' []]
    simp only [levDist_nil_right, List.length_append, List.length_cons, List.length_nil]
    generalize (if x = b then 0 else 1) = cxb
    generalize (if a = b then 0 else 1) = cab
    omega
  | 0, x :: A', y :: B', a, b, h => by simp at h
  | n + 1, x :: A', y :: B', a, b, h => by
    simp only [List.length_cons] at h
    have ih1 := levDist_snoc n A' B' a b (by omega)
    have ih2 := levDist_snoc n A' (y :: B') a b (by simp only [List.length_cons]; omega)
    have ih3 := levDist_snoc n (x :: A') B' a b (by simp only [List.length_cons]; omega)
    simp only [List.cons_append] at ih2 ih3 ⊢
    rw [levDist_uniform x y (A' ++ [a]) (B' ++ [b]), ih1, ih2, ih3]
    rw [levDist_uniform x y A' B', levDist_uniform x y A' (B' ++ [b]),
      levDist_uniform x y (A' ++ [a]) B']
    generalize (if x = y then 0 else 1) = cxy
    generalize (if a = b then 0 else 1) = cab
    simp only [← min_add_add_right]
    ring_nf
    ac_rfl
termination_by n A B a b h => n

theorem levDist_rev : ∀ (n : Nat) (A B : List Nat), A.length + B.length ≤ n →
    levDist A.reverse B.reverse = levDist A B
  | _, [], B, _ => by
    simp [levDist_nil]
  | _, x :: A', [], _ => by
    simp [levDist_nil_right]
  | 0, x :: A', y :: B', h => by simp at h
  | n + 1, x :: A', y :: B', h => by
    simp only [List.length_cons] at h
    have ih1 := levDist_rev n A' B' (by omega)
    have ih2 := levDist_rev n A' (y :: B') (by simp only [List.length_cons]; omega)
    have ih3 := levDist_rev n (x :: A') B' (by simp only [List.length_cons]; omega)
    rw [List.reverse_cons, List.reverse_cons]
    rw [levDist_snoc (A'.reverse.length + B'.reverse.length) A'.reverse B'.reverse x y
      (Nat.le_refl _)]
    rw [← List.reverse_cons y B', ← List.reverse_cons x A']
    rw [ih1, ih2, ih3, levDist_uniform x y A' B']

/-! ### The dynamic-programming column -/

theorem specCol_length (C : List Nat) :
    ∀ (P revPre : List Nat), (specCol C revPre P).length = P.length
  | [], _ => rfl
  | qy :: P', revPre => by
    simp [specCol, specCol_length C P' (qy :: revPre)]

theorem specCol_nil : ∀ (P revPre : List Nat),
    specCol [] revPre P = List.range' (revPre.length + 1) P.length
  | [], _ => rfl
  | qy :: P', revPre => by
    rw [specCol, specCol_nil P' (qy :: revPre), levDist_nil_right]
    simp [List.range'_succ]

theorem specCol_snoc (C : List Nat) : ∀ (P revPre : List Nat) (p : Nat),
    specCol C revPre (P ++ [p]) =
      specCol C revPre P ++ [levDist (p :: (P.reverse ++ revPre)) C]
  | [], revPre, p => by simp [specCol]
  | q0 :: P', revPre, p => by
    rw [List.cons_append, specCol, specCol_snoc C P' (q0 :: revPre) p, specCol]
    simp [List.append_assoc]

theorem cons_specCol_getLastQ (C : List Nat) : ∀ (P revPre : List Nat),
    ((levDist revPre C :: specCol C revPre P) : List Nat).getLast? =
      some (levDist (P.reverse ++ revPre) C)
  | [], revPre => by simp [specCol]
  | p :: P', revPre => by
    rw [specCol, List.getLast?_cons_cons, cons_specCol_getLastQ C P' (p :: revPre)]
    simp [List.append_assoc]

theorem set_decomp (l : List Int) (n : Nat) (a : Int) (h : n < l.length) :
    l.set n a = l.take n ++ a :: l.drop (n + 1) := by
  rw [List.set_eq_take_append_cons_drop, if_pos h]

theorem getElem_append_mid {α : Type} (a b : List α) (x : α) :
    (a ++ x :: b)[a.length]? = some x := by
  rw [List.getElem?_append_right (Nat.le_refl _)]
  simp

theorem set_append_mid {α : Type} : ∀ (a : List α) (x : α) (b : List α) (v : α),
    (a ++ x :: b).set a.length v = a ++ v :: b
  | [], x, b, v => rfl
  | c :: cs, x, b, v => by
    simp only [List.cons_append, List.length_cons, List.set_cons_succ]
    rw [set_append_mid cs x b v]

theorem getElem_append_last {α : Type} (a b : List α) (v : α) (h : a.getLast? = some v) :
    (a ++ b)[a.length - 1]? = some v := by
  cases a with
  | nil => simp at h
  | cons c cs =>
    obtain ⟨ini, las, hsplit⟩ : ∃ ini las, c :: cs = ini ++ [las] := by
      refine ⟨(c :: cs).dropLast, (c :: cs).getLast (by simp), ?_⟩
      exact (List.dropLast_append_getLast (by simp)).symm
    have hv : las = v := by
      rw [hsplit] at h
      simp [List.getLast?_append] at h
      exact h
    rw [hsplit, List.append_assoc, List.cons_append, List.nil_append]
    have hlen : (ini ++ [las]).length - 1 = ini.length := by simp
    rw [hlen, getElem_append_mid ini (b) las, hv]

theorem initLoop_spec : ∀ (fuel : Nat) (col : List Int) (i : Nat), i + fuel ≤ col.length →
    initLoop col i fuel =
      some (col.take i ++ (List.range' i fuel).map (fun k : Nat => (k : Int)) ++
        col.drop (i + fuel))
  | 0, col, i, h => by
    simp [initLoop, List.take_append_drop]
  | fuel + 1, col, i, h => by
    have hi : i < col.length := by omega
    have hset : col.set i (i : Int) = col.take i ++ (i : Int) :: col.drop (i + 1) :=
      set_decomp col i _ hi
    have hlen2 : (col.set i (i : Int)).length = col.length := by simp
    have ih := initLoop_spec fuel (col.set i (i : Int)) (i + 1) (by omega)
    rw [initLoop]
    simp only [bufSet, if_pos hi]
    rw [ih]
    have htake : (col.set i (i : Int)).take (i + 1) = col.take i ++ [(i : Int)] := by
      rw [hset]
      have h1 : (col.take i).length + 1 = i + 1 := by
        simp [List.length_take]
        omega
      rw [← h1, List.take_append 1]
      simp
    have hdrop : (col.set i (i : Int)).drop (i + 1 + fuel) = col.drop (i + 1 + fuel) := by
      rw [hset]
      have h1 : i + 1 + fuel = (col.take i ++ [(i : Int)]).length + fuel := by
        simp [List.length_take]
        omega
      conv_lhs => rw [h1, show col.take i ++ (i : Int) :: col.drop (i + 1) =
        (col.take i ++ [(i : Int)]) ++ col.drop (i + 1) from by simp]
      rw [List.drop_append fuel, List.drop_drop]
    have hidx : i + (fuel + 1) = i + 1 + fuel := by omega
    rw [htake, hdrop, List.range'_succ, List.map_cons, hidx]
    simp [List.append_assoc]

theorem innerLoop_spec (sx : Nat) (B : List Nat) :
    ∀ (qtail qpre : List Nat) (junk : List Int) (lastDiag : Int),
      lastDiag = (levDist qpre.reverse B : Int) →
      innerLoop (qpre ++ qtail) sx
          ((((B.length + 1) :: specCol (sx :: B) [] qpre).map (fun n : Nat => (n : Int))) ++
            ((specCol B qpre.reverse qtail).map (fun n : Nat => (n : Int)) ++ junk))
          lastDiag (qpre.length + 1) qtail.length =
        some ((((B.length + 1) :: specCol (sx :: B) [] (qpre ++ qtail)).map
            (fun n : Nat => (n : Int))) ++ junk)
  | [], qpre, junk, lastDiag, hld => by
    simp [innerLoop, specCol]
  | qy :: qtail', qpre, junk, lastDiag, hld => by
    have hlenNew : (((B.length + 1) :: specCol (sx :: B) [] qpre).map
        (fun n : Nat => (n : Int))).length = qpre.length + 1 := by
      simp [specCol_length]
    have hcol : (((B.length + 1) :: specCol (sx :: B) [] qpre).map (fun n : Nat => (n : Int))) ++
          ((specCol B qpre.reverse (qy :: qtail')).map (fun n : Nat => (n : Int)) ++ junk) =
        (((B.length + 1) :: specCol (sx :: B) [] qpre).map (fun n : Nat => (n : Int))) ++
          ((levDist (qy :: qpre.reverse) B : Int) ::
            ((specCol B (qy :: qpre.reverse) qtail').map (fun n : Nat => (n : Int)) ++ junk)) := by
      rw [specCol]
      simp
    have hga : ((((B.length + 1) :: specCol (sx :: B) [] qpre).map (fun n : Nat => (n : Int))) ++
          ((specCol B qpre.reverse (qy :: qtail')).map (fun n : Nat => (n : Int)) ++
            junk))[qpre.length + 1]? = some ((levDist (qy :: qpre.reverse) B : Int)) := by
      rw [hcol, ← hlenNew]
      exact getElem_append_mid _ _ _
    have hgb : (qpre ++ qy :: qtail')[qpre.length + 1 - 1]? = some qy := by
      simp only [Nat.add_sub_cancel]
      exact getElem_append_mid _ _ _
    have hlast : ((((B.length + 1) :: specCol (sx :: B) [] qpre).map
          (fun n : Nat => (n : Int)))).getLast? =
        some ((levDist qpre.reverse (sx :: B) : Int)) := by
      rw [List.getLast?_map]
      have hhead : (B.length + 1) = levDist [] (sx :: B) := by
        rw [levDist_nil]
        simp
      rw [hhead, cons_specCol_getLastQ (sx :: B) qpre []]
      simp
    have hgc : ((((B.length + 1) :: specCol (sx :: B) [] qpre).map (fun n : Nat => (n : Int))) ++
          ((specCol B qpre.reverse (qy :: qtail')).map (fun n : Nat => (n : Int)) ++
            junk))[qpre.length + 1 - 1]? = some ((levDist qpre.reverse (sx :: B) : Int)) := by
      have h1 : qpre.length + 1 - 1 =
          ((((B.length + 1) :: specCol (sx :: B) [] qpre).map
            (fun n : Nat => (n : Int)))).length - 1 := by
        rw [hlenNew]
      rw [h1]
      exact getElem_append_last _ _ _ hlast
    have hv : min ((levDist (qy :: qpre.reverse) B : Int) + 1)
          (min ((levDist qpre.reverse (sx :: B) : Int) + 1)
            (lastDiag + (if qy = sx then (0 : Int) else 1))) =
        ((levDist (qy :: qpre.reverse) (sx :: B) : Nat) : Int) := by
      rw [hld, levDist_uniform qy sx qpre.reverse B]
      push_cast
      by_cases hc : qy = sx
      · simp only [if_pos hc]
        omega
      · simp only [if_neg hc]
        push_cast
        omega
    have hset : ((((B.length + 1) :: specCol (sx :: B) [] qpre).map (fun n : Nat => (n : Int))) ++
          ((specCol B qpre.reverse (qy :: qtail')).map (fun n : Nat => (n : Int)) ++
            junk)).set (qpre.length + 1) ((levDist (qy :: qpre.reverse) (sx :: B) : Int)) =
        (((B.length + 1) :: specCol (sx :: B) [] (qpre ++ [qy])).map
            (fun n : Nat => (n : Int))) ++
          ((specCol B (qpre ++ [qy]).reverse qtail').map (fun n : Nat => (n : Int)) ++ junk) := by
      rw [hcol, ← hlenNew, set_append_mid]
      rw [specCol_snoc (sx :: B) qpre [] qy]
      simp [List.append_assoc]
    have hlen3 : qpre.length + 1 <
        (((((B.length + 1) :: specCol (sx :: B) [] qpre).map (fun n : Nat => (n : Int))) ++
          ((specCol B qpre.reverse (qy :: qtail')).map (fun n : Nat => (n : Int)) ++
            junk))).length := by
      simp [specCol_length]
    have ih := innerLoop_spec sx B qtail' (qpre ++ [qy]) junk
      ((levDist (qy :: qpre.reverse) B : Int))
      (by rw [List.reverse_append]; simp)
    simp only [List.length_cons]
    rw [show innerLoop (qpre ++ qy :: qtail') sx
        ((((B.length + 1) :: specCol (sx :: B) [] qpre).map (fun n : Nat => (n : Int))) ++
          ((specCol B qpre.reverse (qy :: qtail')).map (fun n : Nat => (n : Int)) ++ junk))
        lastDiag (qpre.length + 1) (qtail'.length + 1) =
      match bufGet ((((B.length + 1) :: specCol (sx :: B) [] qpre).map
            (fun n : Nat => (n : Int))) ++
          ((specCol B qpre.reverse (qy :: qtail')).map (fun n : Nat => (n : Int)) ++ junk))
          (qpre.length + 1),
        (qpre ++ qy :: qtail')[qpre.length + 1 - 1]?,
        bufGet ((((B.length + 1) :: specCol (sx :: B) [] qpre).map
            (fun n : Nat => (n : Int))) ++
          ((specCol B qpre.reverse (qy :: qtail')).map (fun n : Nat => (n : Int)) ++ junk))
          (qpre.length + 1 - 1) with
      | some oldDiag, some qy2, some left =>
        match bufSet ((((B.length + 1) :: specCol (sx :: B) [] qpre).map
              (fun n : Nat => (n : Int))) ++
            ((specCol B qpre.reverse (qy :: qtail')).map (fun n : Nat => (n : Int)) ++ junk))
            (qpre.length + 1)
            (min (oldDiag + 1) (min (left + 1)
              (lastDiag + (if qy2 = sx then (0 : Int) else 1)))) with
        | none => none
        | some col2 => innerLoop (qpre ++ qy :: qtail') sx col2 oldDiag
            (qpre.length + 1 + 1) qtail'.length
      | _, _, _ => none from rfl]
    simp only [bufGet]
    rw [hga, hgb, hgc]
    simp only [bufSet, if_pos hlen3]
    rw [hv, hset]
    have happ : (qpre ++ [qy]) ++ qtail' = qpre ++ qy :: qtail' := by simp
    have hlen4 : (qpre ++ [qy]).length + 1 = qpre.length + 1 + 1 := by simp
    rw [← happ, ← hlen4]
    exact ih

theorem outerLoop_spec (qb : List Nat) :
    ∀ (srem B : List Nat) (junk : List Int),
      outerLoop qb (B.reverse ++ srem) qb.length
          (((B.length :: specCol B [] qb).map (fun n : Nat => (n : Int))) ++ junk)
          (B.length + 1) srem.length =
        some ((((srem.reverse ++ B).length :: specCol (srem.reverse ++ B) [] qb).map
            (fun n : Nat => (n : Int))) ++ junk)
  | [], B, junk => by simp [outerLoop]
  | sx :: srem', B, junk => by
    have hsx : (B.reverse ++ sx :: srem')[B.length + 1 - 1]? = some sx := by
      simp only [Nat.add_sub_cancel]
      rw [show B.length = B.reverse.length from (List.length_reverse B).symm]
      exact getElem_append_mid _ _ _
    have hset : ((((B.length :: specCol B [] qb).map (fun n : Nat => (n : Int))) ++ junk)).set 0
          ((B.length + 1 : Nat) : Int) =
        ((((B.length + 1) :: specCol B [] qb).map (fun n : Nat => (n : Int))) ++ junk) := by
      simp
    have hld : ((B.length + 1 : Nat) : Int) - 1 = (levDist ([] : List Nat).reverse B : Int) := by
      rw [List.reverse_nil, levDist_nil]
      push_cast
      omega
    have hinner := innerLoop_spec sx B qb [] junk (((B.length + 1 : Nat) : Int) - 1) hld
    simp only [List.nil_append, List.reverse_nil, specCol, List.map_cons, List.map_nil,
      List.length_nil, List.cons_append, Nat.zero_add] at hinner
    simp only [List.length_cons]
    rw [show outerLoop qb (B.reverse ++ sx :: srem') qb.length
        (((B.length :: specCol B [] qb).map (fun n : Nat => (n : Int))) ++ junk)
        (B.length + 1) (srem'.length + 1) =
      match (B.reverse ++ sx :: srem')[B.length + 1 - 1]? with
      | none => none
      | some sx2 =>
        match bufSet (((B.length :: specCol B [] qb).map (fun n : Nat => (n : Int))) ++ junk)
            0 ((B.length + 1 : Nat) : Int) with
        | none => none
        | some col2 =>
          match innerLoop qb sx2 col2 (((B.length + 1 : Nat) : Int) - 1) 1 qb.length with
          | none => none
          | some col3 => outerLoop qb (B.reverse ++ sx :: srem') qb.length col3
              (B.length + 1 + 1) srem'.length from rfl]
    rw [hsx]
    have hpos : 0 < ((((B.length :: specCol B [] qb).map (fun n : Nat => (n : Int))) ++
        junk)).length := by simp
    simp only [bufSet, if_pos hpos]
    rw [hset]
    simp only [List.map_cons, List.cons_append] at hinner ⊢
    rw [hinner]
    have ih := outerLoop_spec qb srem' (sx :: B) junk
    simp only [List.reverse_cons, List.append_assoc, List.singleton_append, List.length_cons,
      List.map_cons, List.cons_append] at ih ⊢
    exact ih

theorem dp_spec (qb sb : List Nat) (col : List Int) (h : qb.length + 1 ≤ col.length) :
    initLoop col 0 (qb.length + 1) =
        some (((0 :: specCol [] [] qb).map (fun n : Nat => (n : Int))) ++
          col.drop (qb.length + 1)) ∧
      outerLoop qb sb qb.length
          (((0 :: specCol [] [] qb).map (fun n : Nat => (n : Int))) ++
            col.drop (qb.length + 1)) 1 sb.length =
        some (((sb.length :: specCol sb.reverse [] qb).map (fun n : Nat => (n : Int))) ++
          col.drop (qb.length + 1)) ∧
      bufGet (((sb.length :: specCol sb.reverse [] qb).map (fun n : Nat => (n : Int))) ++
          col.drop (qb.length + 1)) qb.length = some ((levDist qb sb : Nat) : Int) ∧
      (((sb.length :: specCol sb.reverse [] qb).map (fun n : Nat => (n : Int))) ++
          col.drop (qb.length + 1)).length = col.length := by
  have hcols : List.range' 0 (qb.length + 1) = 0 :: specCol [] [] qb := by
    rw [List.range'_succ, specCol_nil qb []]
    simp
  refine ⟨?_, ?_, ?_, ?_⟩
  · have hinit := initLoop_spec (qb.length + 1) col 0 (by omega)
    simp only [List.take_zero, List.nil_append, Nat.zero_add] at hinit
    rw [hinit, hcols]
  · have houter := outerLoop_spec qb sb [] (col.drop (qb.length + 1))
    simp only [List.reverse_nil, List.nil_append, List.append_nil, List.length_nil,
      Nat.zero_add, List.length_reverse] at houter
    exact houter
  · have hlast : (((sb.length :: specCol sb.reverse [] qb).map
        (fun n : Nat => (n : Int)))).getLast? = some ((levDist qb sb : Nat) : Int) := by
      rw [List.getLast?_map]
      have hhead : sb.length = levDist [] sb.reverse := by
        rw [levDist_nil, List.length_reverse]
      rw [hhead, cons_specCol_getLastQ sb.reverse qb []]
      rw [List.append_nil, levDist_rev (qb.length + sb.length) qb sb (Nat.le_refl _)]
      rfl
    have hlen : qb.length =
        (((sb.length :: specCol sb.reverse [] qb).map (fun n : Nat => (n : Int)))).length - 1 := by
      simp [specCol_length]
    rw [bufGet, hlen]
    exact getElem_append_last _ _ _ hlast
  · simp [specCol_length]
    omega

theorem coverLoop_iff (m : Nat) : ∀ (q s : GoStr) (f : Nat),
    coverLoop m q s f = true ↔ f + greedyFound q s < m ∧ greedyFound q s < q.length
  | [], s, f => by simp [coverLoop, greedyFound]
  | qr :: qs, s, f => by
    by_cases hf : m ≤ f
    · simp only [coverLoop, if_pos hf, Bool.false_eq_true, false_iff]
      omega
    · cases hfr : findRune qr s with
      | none =>
        simp only [coverLoop, if_neg hf, hfr, greedyFound, List.length_cons]
        simp only [true_iff]
        omega
      | some rest =>
        simp only [coverLoop, if_neg hf, hfr, greedyFound, List.length_cons]
        rw [coverLoop_iff m qs rest (f + 1)]
        omega


/-- Claim C3, counterexample: the coverage pre-check threshold
floor(0.6 times the byte length of the term) can exceed the number of runes
of the term, in which case the greedy scan can never reach it; the code then
still falls through to the distance computation (the break is reached only
when the whole term was consumed), while the claim demands an immediate
no-match whenever fewer than the threshold are found.  For the two-rune,
six-byte CJK query against a candidate with one rune inserted, the
threshold is 3, the greedy scan finds only 2, and LevenshteinFind
nevertheless returns a match of score 1. -/
theorem levenshtein_cover_counterexample :
    LevenshteinFind (str "日本") [str "日x本"] = some [⟨1, 0⟩] ∧
      greedyFound (str "日本") ((input (str "日本")).2 (str "日x本")).1 = 2 ∧
      3 * utf8Len (str "日本") / 5 = 3 := by
  refine ⟨?_, by decide, by decide⟩
  decide

/-- Claim C3, amended: for every term t and candidate whose transformed form
passes the predicate, is at least as byte-long as t, differs from t, and does
not contain t as a contiguous substring (t non-empty, buffer large enough),
levenshteinScore signals no-match exactly when the greedy forward scan of the
transformed candidate finds fewer than floor(0.6 times the byte length of t)
runes of t in order AND misses at least one rune of t (the pre-check loop
falls through whenever every rune of t is found, even below the threshold);
otherwise it returns exactly the unit-cost Levenshtein distance between the
UTF-8 byte sequences of t and of the transformed candidate, with no
additional penalty term.  The Go threshold int(float64(ql) * 0.6) is modelled
as 3 * ql / 5, the exact value for every realistic byte length. -/
theorem levenshteinScore_spec (q c : GoStr) (f : GoStr → GoStr × Bool) (col : List Int)
    (hfound : (f c).2 = true) (hlen : utf8Len q ≤ utf8Len (f c).1) (hne : q ≠ (f c).1)
    (hnosub : ¬ q <:+: (f c).1) (hq : q ≠ []) (hcol : utf8Len q + 1 ≤ col.length) :
    (levenshteinScore q c f col).map Prod.fst =
      some (if greedyFound q (f c).1 < 3 * utf8Len q / 5 ∧ greedyFound q (f c).1 < q.length
        then (-1 : Int)
        else ((levDist (utf8Bytes q) (utf8Bytes (f c).1) : Nat) : Int)) := by
  simp only [levenshteinScore]
  rw [if_neg (by push_neg; exact ⟨by simp [hfound], by omega⟩)]
  rw [if_neg (by push_neg; exact ⟨hne, hq⟩)]
  rw [if_neg hnosub]
  by_cases hP : greedyFound q (f c).1 < 3 * utf8Len q / 5 ∧ greedyFound q (f c).1 < q.length
  · have hcov : coverLoop (3 * utf8Len q / 5) q (f c).1 0 = true := by
      rw [coverLoop_iff]
      exact ⟨by omega, hP.2⟩
    rw [if_pos hcov, if_pos hP]
    rfl
  · have hcov : ¬ (coverLoop (3 * utf8Len q / 5) q (f c).1 0 = true) := by
      intro hc
      rw [coverLoop_iff] at hc
      exact hP ⟨by omega, hc.2⟩
    rw [if_neg hcov, if_neg hP]
    obtain ⟨h1, h2, h3, _⟩ := dp_spec (utf8Bytes q) (utf8Bytes (f c).1) col hcol
    have hql : utf8Len q = (utf8Bytes q).length := rfl
    have hsl : utf8Len (f c).1 = (utf8Bytes (f c).1).length := rfl
    rw [hql, hsl]
    rw [h1]
    simp only [h2, h3]
    rfl

/-- Claim C3, witness: the theorem applied to the concrete misspelled query
tset against candidate test with the identity predicate and a fresh buffer of
length five. -/
theorem levenshteinScore_spec_witness :
    (levenshteinScore (str "tset") (str "test") (fun s => (s, true))
        (List.replicate 5 (0 : Int))).map Prod.fst =
      some (if greedyFound (str "tset") (((fun (s : GoStr) => (s, true)) (str "test")).1) <
              3 * utf8Len (str "tset") / 5 ∧
            greedyFound (str "tset") (((fun (s : GoStr) => (s, true)) (str "test")).1) <
              (str "tset").length
        then (-1 : Int)
        else ((levDist (utf8Bytes (str "tset"))
            (utf8Bytes (((fun (s : GoStr) => (s, true)) (str "test")).1)) : Nat) : Int)) :=
  levenshteinScore_spec (str "tset") (str "test") (fun s => (s, true))
    (List.replicate 5 (0 : Int)) (by decide) (by decide) (by decide) (by decide)
    (by decide) (by decide)


theorem flatten_sub_of_sub {l1 l2 : List GoStr} (h : List.Sublist l1 l2) :
    List.Sublist l1.flatten l2.flatten := by
  induction h with
  | slnil => exact List.Sublist.refl _
  | cons a _ ih =>
    simp only [List.flatten_cons]
    exact ih.trans (List.sublist_append_right _ _)
  | cons₂ a _ ih =>
    simp only [List.flatten_cons]
    exact ih.append_left a

theorem flatten_splitSp_sub : ∀ q : GoStr, List.Sublist (splitSp q).flatten q
  | [] => by simp [splitSp]
  | c :: cs => by
    by_cases hc : c = ' '
    · simp only [splitSp, if_pos hc, List.flatten_cons, List.nil_append]
      exact (flatten_splitSp_sub cs).trans (List.sublist_cons_self c cs)
    · simp only [splitSp, if_neg hc]
      cases hsp : splitSp cs with
      | nil =>
        simp only [List.flatten_cons, List.flatten_nil, List.append_nil]
        exact List.Sublist.cons₂ c (List.nil_sublist cs)
      | cons t ts =>
        simp only [List.flatten_cons, List.cons_append]
        have ih := flatten_splitSp_sub cs
        rw [hsp] at ih
        simp only [List.flatten_cons] at ih
        exact List.Sublist.cons₂ c ih

theorem term_le (q : GoStr) : utf8Len (input q).1 ≤ utf8Len q := by
  by_cases hq : q = []
  · subst hq
    simp [input, utf8Len, utf8Bytes]
  · have hsub : List.Sublist ((splitSp q).filter (fun w => !isFilterTok w)).flatten q :=
      (flatten_sub_of_sub (List.filter_sublist (splitSp q))).trans (flatten_splitSp_sub q)
    simp only [input, if_neg hq]
    split
    · exact utf8Len_le_of_sub hsub
    · exact utf8Len_le_of_sub hsub

theorem levenshteinScore_isSome (q c : GoStr) (f : GoStr → GoStr × Bool) (col : List Int)
    (h : utf8Len q + 1 ≤ col.length) :
    ∃ r col2, levenshteinScore q c f col = some (r, col2) ∧ col2.length = col.length := by
  simp only [levenshteinScore]
  by_cases h1 : (f c).2 = false ∨ utf8Len (f c).1 < utf8Len q
  · rw [if_pos h1]
    exact ⟨-1, col, rfl, rfl⟩
  · rw [if_neg h1]
    by_cases h2 : q = (f c).1 ∨ q = []
    · rw [if_pos h2]
      exact ⟨0, col, rfl, rfl⟩
    · rw [if_neg h2]
      by_cases h3 : q <:+: (f c).1
      · rw [if_pos h3]
        exact ⟨_, col, rfl, rfl⟩
      · rw [if_neg h3]
        by_cases h4 : coverLoop (3 * utf8Len q / 5) q (f c).1 0 = true
        · rw [if_pos h4]
          exact ⟨-1, col, rfl, rfl⟩
        · rw [if_neg h4]
          obtain ⟨hi, ho, hg, hl⟩ := dp_spec (utf8Bytes q) (utf8Bytes (f c).1) col h
          rw [show utf8Len q = (utf8Bytes q).length from rfl,
            show utf8Len (f c).1 = (utf8Bytes (f c).1).length from rfl]
          rw [hi]
          simp only [ho, hg]
          exact ⟨_, _, rfl, hl⟩

theorem findLevAux_isSome (q2 : GoStr) (f : GoStr → GoStr × Bool) :
    ∀ (ls : List GoStr) (i : Nat) (col : List Int), utf8Len q2 + 1 ≤ col.length →
      (findLevAux q2 f ls i col).isSome = true
  | [], _, _, _ => rfl
  | l :: ls, i, col, h => by
    obtain ⟨r, col2, hs, hl⟩ := levenshteinScore_isSome q2 l f col h
    have ih := findLevAux_isSome q2 f ls (i + 1) col2 (by omega)
    simp only [findLevAux, hs]
    cases hfa : findLevAux q2 f ls (i + 1) col2 with
    | none =>
      rw [hfa] at ih
      simp at ih
    | some ms => simp

/-- Claim C10: the parsed term is never byte-longer than the raw query (it
is the in-order concatenation of a sublist of the space-split query, itself
a sublist of the query), so the scratch column of length len(rawQuery) + 1
allocated by LevenshteinFind covers every index 0..len(term) the distance
computation touches: with every read and write of the shared column modelled
as a bounds-checked operation, LevenshteinFind succeeds on every query and
every source list. -/
theorem levenshtein_buffer_safe (q : GoStr) (src : List GoStr) :
    utf8Len (input q).1 ≤ utf8Len q ∧ (LevenshteinFind q src).isSome = true := by
  refine ⟨term_le q, ?_⟩
  simp only [LevenshteinFind]
  refine findLevAux_isSome (input q).1 (input q).2 src 0
    (List.replicate (utf8Len q + 1) (0 : Int)) ?_
  rw [List.length_replicate]
  have := term_le q
  omega


end Fuzzy
